import Mathlib

/-
  Verification development for the text-chunking pipeline and the
  search-ranking fallback of the semantic-file-search repository.

  JavaScript strings are modelled as `List Char`; `String.prototype.trim`
  is modelled as removing whitespace characters (in the sense of
  `Char.isWhitespace`) from both ends, and `text.split(/[.!?]+/)` is
  modelled by `splitDelims` below: runs of the delimiter characters
  `.`, `!`, `?` separate the pieces and are discarded.
-/

namespace Smntc

/-- The sentence delimiter characters of the regex `/[.!?]+/` in
`DocumentProcessor.chunkText`. -/
def isDelim (c : Char) : Bool := c = '.' || c = '!' || c = '?'

/-- Whitespace test used to model `String.prototype.trim`. -/
def isWS (c : Char) : Bool := c.isWhitespace

/-- Model of `s.trim()`: drop whitespace from the front, then from the back. -/
def trimc (s : List Char) : List Char :=
  ((s.dropWhile isWS).reverse.dropWhile isWS).reverse

/-- Worker for `splitDelims`.  `afterD` records whether the previously
consumed character was a delimiter (so that a run of consecutive delimiters
acts as a single separator, as the regex quantifier `+` does);
`cur` is the current piece, reversed. -/
def splitGo : List Char → Bool → List Char → List (List Char)
  | [], _, cur => [cur.reverse]
  | c :: rest, afterD, cur =>
    if isDelim c then
      if afterD then splitGo rest true cur
      else cur.reverse :: splitGo rest true []
    else splitGo rest false (c :: cur)

/-- Model of `text.split(/[.!?]+/)`. -/
def splitDelims (s : List Char) : List (List Char) := splitGo s false []

/-- Model of `text.split(/[.!?]+/).filter(s => s.trim().length > 0)`
(the local `sentences` of `DocumentProcessor.chunkText`). -/
def sentences (text : List Char) : List (List Char) :=
  (splitDelims text).filter (fun s => 0 < (trimc s).length)

/-- The per-sentence loop of `DocumentProcessor.chunkText` (the chunk
builder): `acc` is `currentChunk`.  On exhaustion the trailing
`if (currentChunk.trim().length > 0) chunks.push(currentChunk.trim())`
is performed. -/
def buildGo (S : Nat) : List (List Char) → List Char → List (List Char)
  | [], acc => if 0 < (trimc acc).length then [trimc acc] else []
  | s :: rest, acc =>
    let t := trimc s
    if t.length = 0 then buildGo S rest acc
    else if S < acc.length + t.length ∧ 0 < acc.length then
      trimc acc :: buildGo S rest t
    else
      buildGo S rest (acc ++ (if 0 < acc.length then '.' :: ' ' :: t else t))

/-- The merge loop of `DocumentProcessor.chunkText`, with the merge
threshold `M` a parameter; `temp` is `tempChunk`.  The source hard-codes
`M = 100` (see `mergeChunks`). -/
def mergeGoWith (M : Nat) : List (List Char) → List Char → List (List Char)
  | [], temp => if 0 < temp.length then [temp] else []
  | c :: rest, temp =>
    if temp.length + c.length < M ∧ 0 < temp.length then
      mergeGoWith M rest (temp ++ '.' :: ' ' :: c)
    else if 0 < temp.length then
      temp :: mergeGoWith M rest c
    else
      mergeGoWith M rest c

/-- The merge pass exactly as in the source: threshold literal `100`. -/
def mergeChunks (cs : List (List Char)) : List (List Char) :=
  mergeGoWith 100 cs []

/-- Model of `DocumentProcessor.chunkText(text, chunkSize)`. -/
def chunkText (text : List Char) (chunkSize : Nat) : List (List Char) :=
  let chunks := buildGo chunkSize (sentences text) []
  let merged := mergeChunks chunks
  if 0 < merged.length then merged else [text.take chunkSize]

/-- Spec-side variant of `chunkText` for comparison, following the spec's
words that the merge threshold is "derived/fixed relative to" the caller's
`chunkSize` at the fixed 500/100 (5:1) ratio: here the merge pass uses the
threshold `chunkSize / 5` instead of the source's literal `100`. -/
def chunkTextSpecRatio (text : List Char) (chunkSize : Nat) : List (List Char) :=
  let chunks := buildGo chunkSize (sentences text) []
  let merged := mergeGoWith (chunkSize / 5) chunks []
  if 0 < merged.length then merged else [text.take chunkSize]

/-- The trimmed sentence fragments produced by the segmenter, as consumed
by the chunk builder. -/
def trimmedSentences (text : List Char) : List (List Char) :=
  (sentences text).map trimc

/-- Concatenation of a chunk list with the injected `". "` separator
between consecutive entries (the joining discipline of both the builder
and the merger). -/
def joinSep : List (List Char) → List Char
  | [] => []
  | [c] => c
  | c :: c' :: cs => c ++ '.' :: ' ' :: joinSep (c' :: cs)

/-- A string with no leading and no trailing whitespace (a fixed point of
`trimc`, characterised end-wise). -/
def tightStr (l : List Char) : Prop :=
  List.dropWhile isWS l = l ∧ List.dropWhile isWS l.reverse = l.reverse

/-- Every adjacent pair of entries of `l` has combined length at least `M`. -/
def adjPairsGE (M : Nat) (l : List (List Char)) : Prop :=
  ∀ i, i + 1 < l.length → M ≤ (l.getD i []).length + (l.getD (i + 1) []).length

/-! ### The search-ranking fallback (`WeaviateService.fallbackKeywordSearch`)

The upstream keyword query (the `Like` filter sent to the database) is an
external collaborator; the part modelled here is the scoring map applied
to the matched-item list it returns:
`items.map((item, index) => ({..., score: 1 - (index * 0.1), ...}))`.
Scores are modelled as exact rationals; at every position examined by the
claims the IEEE-754 double result coincides with the rational one
(`10 * 0.1 === 1` holds for doubles). -/

/-- One raw matched object returned by the upstream keyword query, with
the properties the scoring map reads. -/
structure MatchItem where
  content : List Char
  documentId : List Char
  documentName : List Char
  chunkIndex : Nat
  uploadedAt : List Char
  deriving DecidableEq

/-- The nested `metadata` record of a `SearchResult`. -/
structure ResultMeta where
  documentName : List Char
  uploadedAt : List Char
  deriving DecidableEq

/-- The `SearchResult` record built by the fallback scoring map. -/
structure ScoredResult where
  documentId : List Char
  content : List Char
  score : Rat
  chunkIndex : Nat
  metadata : ResultMeta
  deriving DecidableEq

/-- The result object built for the item at zero-based position `i`:
score `1 - (i * 0.1)`, all other fields copied from the item. -/
def mkScored (i : Nat) (item : MatchItem) : ScoredResult :=
  { documentId := item.documentId
    content := item.content
    score := 1 - (i : Rat) * (1 / 10)
    chunkIndex := item.chunkIndex
    metadata := { documentName := item.documentName, uploadedAt := item.uploadedAt } }

/-- The indexed map of the fallback scoring, position `i` onward. -/
def rankGo : Nat → List MatchItem → List ScoredResult
  | _, [] => []
  | i, item :: rest => mkScored i item :: rankGo (i + 1) rest

/-- Model of the scoring stage of `fallbackKeywordSearch`: the query
string is only used by the external database call that produced `items`,
so the scoring map does not read it. -/
def fallbackKeywordRank (_query : List Char) (items : List MatchItem) :
    List ScoredResult :=
  rankGo 0 items

/-- Placeholder item for out-of-range `getD` reads in statements. -/
def dummyItem : MatchItem :=
  { content := [], documentId := [], documentName := [], chunkIndex := 0, uploadedAt := [] }

/-- Placeholder result for out-of-range `getD` reads in statements. -/
def dummyResult : ScoredResult :=
  { documentId := [], content := [], score := 0, chunkIndex := 0
    metadata := { documentName := [], uploadedAt := [] } }

/-- Concrete matched item used in closed statements. -/
def itemA : MatchItem :=
  { content := ("cat content").toList, documentId := ("doc1").toList
    documentName := ("a.txt").toList, chunkIndex := 0, uploadedAt := ("t1").toList }

/-- Second concrete matched item used in closed statements. -/
def itemB : MatchItem :=
  { content := ("other content").toList, documentId := ("doc2").toList
    documentName := ("b.txt").toList, chunkIndex := 3, uploadedAt := ("t2").toList }

/-- A 531-character input whose sentences are a 480-character run and a
50-character run: the builder splits them into two chunks and the merger
keeps both, the second being shorter than 100 characters. -/
def longShortText : List Char :=
  List.replicate 480 'x' ++ '.' :: List.replicate 50 'y'

/-! ### Basic facts about `dropWhile`, `trimc` and trimmed strings -/

theorem length_dropWhile_le' (p : Char → Bool) :
    ∀ l : List Char, (List.dropWhile p l).length ≤ l.length := by
  intro l
  induction l with
  | nil => simp
  | cons c rest ih =>
    by_cases hc : p c
    · calc (List.dropWhile p (c :: rest)).length
          = (List.dropWhile p rest).length := by simp [List.dropWhile_cons, hc]
        _ ≤ rest.length := ih
        _ ≤ (c :: rest).length := by simp
    · simp [List.dropWhile_cons, hc]

theorem dropWhile_eq_self_or_shorter (p : Char → Bool) :
    ∀ l : List Char, List.dropWhile p l = l ∨ (List.dropWhile p l).length < l.length := by
  intro l
  cases l with
  | nil => left; rfl
  | cons c rest =>
    by_cases hc : p c
    · right
      simp only [List.dropWhile_cons, hc, if_true]
      calc (List.dropWhile p rest).length ≤ rest.length :=
            length_dropWhile_le' p rest
        _ < (c :: rest).length := by simp
    · left; simp [List.dropWhile_cons, hc]

theorem not_head_of_dropWhile_eq (p : Char → Bool) (c : Char) (l : List Char)
    (h : List.dropWhile p (c :: l) = c :: l) : p c = false := by
  by_cases hc : p c
  · exfalso
    rw [List.dropWhile_cons, if_pos hc] at h
    have hlen := congrArg List.length h
    have := length_dropWhile_le' p l
    simp at hlen
    omega
  · simpa using hc

theorem exists_append_dropWhile (p : Char → Bool) :
    ∀ l : List Char, ∃ u, l = u ++ List.dropWhile p l := by
  intro l
  induction l with
  | nil => exact ⟨[], rfl⟩
  | cons c rest ih =>
    by_cases hc : p c
    · obtain ⟨u, hu⟩ := ih
      exact ⟨c :: u, by simp [List.dropWhile_cons, hc, ← hu]⟩
    · exact ⟨[], by simp [List.dropWhile_cons, hc]⟩

theorem dropWhile_dropWhile (p : Char → Bool) (l : List Char) :
    List.dropWhile p (List.dropWhile p l) = List.dropWhile p l := by
  induction l with
  | nil => rfl
  | cons c rest ih =>
    by_cases hc : p c
    · simpa [List.dropWhile_cons, hc] using ih
    · simp [List.dropWhile_cons, hc]

theorem dropWhile_front_of_append (p : Char → Bool) :
    ∀ a b : List Char, List.dropWhile p (a ++ b) = a ++ b → List.dropWhile p a = a := by
  intro a b h
  cases a with
  | nil => rfl
  | cons c a' =>
    have hc : p c = false := not_head_of_dropWhile_eq p c (a' ++ b) (by simpa using h)
    simp [List.dropWhile_cons, hc]

theorem tightStr_nil : tightStr [] := ⟨rfl, rfl⟩

theorem trimc_eq_self_of_tight {l : List Char} (h : tightStr l) : trimc l = l := by
  unfold trimc
  rw [h.1, h.2, List.reverse_reverse]

theorem tightStr_trimc (l : List Char) : tightStr (trimc l) := by
  constructor
  · -- no leading whitespace
    unfold trimc
    set d := List.dropWhile isWS l with hd
    have hdfix : List.dropWhile isWS d = d := dropWhile_dropWhile isWS l
    obtain ⟨u, hu⟩ := exists_append_dropWhile isWS d.reverse
    set w := List.dropWhile isWS d.reverse with hw
    have hdw : d = w.reverse ++ u.reverse := by
      have := congrArg List.reverse hu
      simpa using this
    have : List.dropWhile isWS (w.reverse ++ u.reverse) = w.reverse ++ u.reverse := by
      rw [← hdw]; exact hdfix
    exact dropWhile_front_of_append isWS w.reverse u.reverse this
  · -- no trailing whitespace
    unfold trimc
    rw [List.reverse_reverse]
    exact dropWhile_dropWhile isWS _

theorem length_trimc_le (l : List Char) : (trimc l).length ≤ l.length := by
  unfold trimc
  calc ((l.dropWhile isWS).reverse.dropWhile isWS).reverse.length
      = ((l.dropWhile isWS).reverse.dropWhile isWS).length := by simp
    _ ≤ (l.dropWhile isWS).reverse.length := length_dropWhile_le' _ _
    _ = (l.dropWhile isWS).length := by simp
    _ ≤ l.length := length_dropWhile_le' _ _

theorem tight_head_not_ws {c : Char} {l : List Char} (h : tightStr (c :: l)) :
    isWS c = false :=
  not_head_of_dropWhile_eq isWS c l h.1

theorem tight_ne_nil_reverse_head {l : List Char} (h : tightStr l) (hne : l ≠ []) :
    ∃ c l', l.reverse = c :: l' ∧ isWS c = false := by
  have : l.reverse ≠ [] := by simpa using hne
  obtain ⟨c, l', hcl⟩ := List.exists_cons_of_ne_nil this
  refine ⟨c, l', hcl, ?_⟩
  have h2 := h.2
  rw [hcl] at h2
  exact not_head_of_dropWhile_eq isWS c l' h2

theorem tightStr_append_sep {a b : List Char} (ha : tightStr a) (hna : a ≠ [])
    (hb : tightStr b) (hnb : b ≠ []) : tightStr (a ++ '.' :: ' ' :: b) := by
  constructor
  · obtain ⟨c, a', rfl⟩ := List.exists_cons_of_ne_nil hna
    have hc : isWS c = false := tight_head_not_ws ha
    simp [List.dropWhile_cons, hc]
  · obtain ⟨c, b', hrev, hc⟩ := tight_ne_nil_reverse_head hb hnb
    rw [show (a ++ '.' :: ' ' :: b).reverse = b.reverse ++ [' ', '.'] ++ a.reverse by simp]
    rw [hrev]
    simp [List.dropWhile_cons, hc]

theorem trimc_cons_space {q : List Char} (hq : tightStr q) :
    trimc (' ' :: q) = q := by
  unfold trimc
  have hws : isWS ' ' = true := by decide
  rw [List.dropWhile_cons, if_pos hws, hq.1, hq.2, List.reverse_reverse]

theorem mem_of_mem_dropWhile (p : Char → Bool) {c : Char} {l : List Char}
    (h : c ∈ List.dropWhile p l) : c ∈ l := by
  obtain ⟨u, hu⟩ := exists_append_dropWhile p l
  rw [hu]
  exact List.mem_append_right u h

theorem mem_of_mem_trimc {c : Char} {l : List Char} (h : c ∈ trimc l) : c ∈ l := by
  unfold trimc at h
  rw [List.mem_reverse] at h
  have h1 : c ∈ (l.dropWhile isWS).reverse := mem_of_mem_dropWhile isWS h
  rw [List.mem_reverse] at h1
  exact mem_of_mem_dropWhile isWS h1

/-! ### Facts about `joinSep` -/

theorem joinSep_cons_cons (a b : List Char) (l : List (List Char)) :
    joinSep (a :: b :: l) = a ++ '.' :: ' ' :: joinSep (b :: l) := rfl

theorem joinSep_sep_absorb (a b : List Char) (l : List (List Char)) :
    joinSep ((a ++ '.' :: ' ' :: b) :: l) = a ++ '.' :: ' ' :: joinSep (b :: l) := by
  cases l with
  | nil => rfl
  | cons c cs => simp [joinSep_cons_cons, List.append_assoc]

theorem joinSep_ne_nil {a : List Char} (ha : a ≠ []) (l : List (List Char)) :
    joinSep (a :: l) ≠ [] := by
  cases l with
  | nil => simpa [joinSep] using ha
  | cons b cs =>
    rw [joinSep_cons_cons]
    intro h
    exact ha (List.append_eq_nil.mp h).1

/-! ### The segmenter on joined fragment lists -/

theorem splitGo_front (p rest : List Char) (cur : List Char)
    (hp : ∀ c ∈ p, isDelim c = false) :
    splitGo (p ++ rest) false cur = splitGo rest false (p.reverse ++ cur) := by
  induction p generalizing cur with
  | nil => simp
  | cons c p' ih =>
    have hc : isDelim c = false := hp c (List.mem_cons_self c p')
    have hp' : ∀ c ∈ p', isDelim c = false := fun x hx => hp x (List.mem_cons_of_mem c hx)
    calc splitGo ((c :: p') ++ rest) false cur
        = splitGo (p' ++ rest) false (c :: cur) := by simp [splitGo, hc]
      _ = splitGo rest false (p'.reverse ++ (c :: cur)) := ih (c :: cur) hp'
      _ = splitGo rest false ((c :: p').reverse ++ cur) := by simp

theorem splitGo_joinSep (rest : List (List Char)) (p cur : List Char)
    (hpne : p ≠ []) (hpd : ∀ c ∈ p, isDelim c = false)
    (hrest : ∀ q ∈ rest, q ≠ [] ∧ ∀ c ∈ q, isDelim c = false) :
    splitGo (joinSep (p :: rest)) false cur
      = (cur.reverse ++ p) :: rest.map (fun q => ' ' :: q) := by
  induction rest generalizing p cur with
  | nil =>
    calc splitGo (joinSep [p]) false cur
        = splitGo (p ++ []) false cur := by simp [joinSep]
      _ = splitGo [] false (p.reverse ++ cur) := splitGo_front p [] cur hpd
      _ = [(p.reverse ++ cur).reverse] := rfl
      _ = [cur.reverse ++ p] := by simp
  | cons q rest' ih =>
    have hq : q ≠ [] ∧ ∀ c ∈ q, isDelim c = false := hrest q (List.mem_cons_self q rest')
    have hrest' : ∀ r ∈ rest', r ≠ [] ∧ ∀ c ∈ r, isDelim c = false :=
      fun r hr => hrest r (List.mem_cons_of_mem q hr)
    have step1 : splitGo (joinSep (p :: q :: rest')) false cur
        = splitGo ('.' :: ' ' :: joinSep (q :: rest')) false (p.reverse ++ cur) := by
      rw [joinSep_cons_cons]
      exact splitGo_front p ('.' :: ' ' :: joinSep (q :: rest')) cur hpd
    have step2 : splitGo ('.' :: ' ' :: joinSep (q :: rest')) false (p.reverse ++ cur)
        = (cur.reverse ++ p) :: splitGo (joinSep (q :: rest')) false [' '] := by
      simp [splitGo, isDelim]
    rw [step1, step2, ih q [' '] hq.1 hq.2 hrest']
    simp

theorem splitGo_pieces_nodelim :
    ∀ (s : List Char) (afterD : Bool) (cur : List Char),
      (∀ c ∈ cur, isDelim c = false) →
      ∀ piece ∈ splitGo s afterD cur, ∀ c ∈ piece, isDelim c = false := by
  intro s
  induction s with
  | nil =>
    intro afterD cur hcur piece hpiece c hc
    simp [splitGo] at hpiece
    subst hpiece
    exact hcur c (List.mem_reverse.mp hc)
  | cons a rest ih =>
    intro afterD cur hcur piece hpiece c hc
    by_cases ha : isDelim a
    · cases afterD with
      | true =>
        simp only [splitGo, ha, if_true] at hpiece
        exact ih true cur hcur piece hpiece c hc
      | false =>
        simp only [splitGo, ha, if_true] at hpiece
        rcases List.mem_cons.mp hpiece with rfl | hpiece
        · exact hcur c (List.mem_reverse.mp hc)
        · exact ih true [] (by simp) piece hpiece c hc
    · simp only [splitGo, ha, if_false] at hpiece
      refine ih false (a :: cur) ?_ piece hpiece c hc
      intro x hx
      rcases List.mem_cons.mp hx with rfl | hx
      · simpa using ha
      · exact hcur x hx

/-- Round trip: re-running the segmenter (split, filter, trim) on a
fragment list joined with `". "` returns exactly that fragment list,
provided every fragment is non-empty, trimmed and delimiter-free. -/
theorem trimmedSentences_joinSep (p : List Char) (rest : List (List Char))
    (hall : ∀ q ∈ p :: rest, q ≠ [] ∧ tightStr q ∧ ∀ c ∈ q, isDelim c = false) :
    trimmedSentences (joinSep (p :: rest)) = p :: rest := by
  obtain ⟨hpne, hpt, hpd⟩ := hall p (List.mem_cons_self p rest)
  have hrest : ∀ q ∈ rest, q ≠ [] ∧ ∀ c ∈ q, isDelim c = false := by
    intro q hq
    obtain ⟨h1, _, h3⟩ := hall q (List.mem_cons_of_mem p hq)
    exact ⟨h1, h3⟩
  have hsplit : splitDelims (joinSep (p :: rest))
      = p :: rest.map (fun q => ' ' :: q) := by
    unfold splitDelims
    rw [splitGo_joinSep rest p [] hpne hpd hrest]
    simp
  have htrim : ∀ q ∈ rest, trimc (' ' :: q) = q := by
    intro q hq
    obtain ⟨h1, h2, _⟩ := hall q (List.mem_cons_of_mem p hq)
    exact trimc_cons_space h2
  unfold trimmedSentences sentences
  rw [hsplit]
  have hkeepp : 0 < (trimc p).length := by
    rw [trimc_eq_self_of_tight hpt]
    exact List.length_pos.mpr hpne
  have hfilter : (p :: rest.map (fun q => ' ' :: q)).filter
      (fun s => 0 < (trimc s).length) = p :: rest.map (fun q => ' ' :: q) := by
    rw [List.filter_eq_self]
    intro a ha
    rcases List.mem_cons.mp ha with rfl | ha
    · simpa using hkeepp
    · obtain ⟨q, hq, rfl⟩ := List.mem_map.mp ha
      have := htrim q hq
      have hqne : q ≠ [] := (hall q (List.mem_cons_of_mem p hq)).1
      simp only [this]
      simpa using List.length_pos.mpr hqne
  rw [hfilter]
  simp only [List.map_cons, List.map_map]
  rw [trimc_eq_self_of_tight hpt]
  congr 1
  rw [List.map_congr_left ?_, List.map_id]
  intro q hq
  exact htrim q hq

/-! ### Invariants of the chunk builder -/

theorem buildGo_ne_nil (S : Nat) :
    ∀ (frags : List (List Char)) (acc : List Char),
      tightStr acc → acc ≠ [] → buildGo S frags acc ≠ [] := by
  intro frags
  induction frags with
  | nil =>
    intro acc hacc hne
    have : trimc acc = acc := trimc_eq_self_of_tight hacc
    simp [buildGo, this, List.length_pos.mpr hne]
  | cons s rest ih =>
    intro acc hacc hne
    simp only [buildGo]
    by_cases h0 : (trimc s).length = 0
    · simp only [h0, if_pos rfl]
      exact ih acc hacc hne
    · rw [if_neg h0]
      by_cases hemit : S < acc.length + (trimc s).length ∧ 0 < acc.length
      · rw [if_pos hemit]
        simp
      · rw [if_neg hemit]
        have htne : trimc s ≠ [] := fun h => h0 (by simp [h])
        have hposacc : (0 < acc.length) ∨ acc = [] := by
          rcases List.eq_nil_or_concat acc with rfl | _
          · right; rfl
          · left; rename_i hcc; obtain ⟨l, a, rfl⟩ := hcc; simp
        rcases hposacc with hpos | rfl
        · rw [if_pos hpos]
          refine ih _ (tightStr_append_sep hacc ?_ (tightStr_trimc s) htne) (by simp)
          exact fun h => hne h
        · exact absurd rfl hne

theorem buildGo_chunks_ne_nil (S : Nat) :
    ∀ (frags : List (List Char)) (acc : List Char),
      tightStr acc → ∀ c ∈ buildGo S frags acc, c ≠ [] := by
  intro frags
  induction frags with
  | nil =>
    intro acc hacc c hc
    simp only [buildGo] at hc
    by_cases h : 0 < (trimc acc).length
    · rw [if_pos h] at hc
      rcases List.mem_cons.mp hc with rfl | hc
      · exact List.length_pos.mp h
      · simp at hc
    · rw [if_neg h] at hc; simp at hc
  | cons s rest ih =>
    intro acc hacc c hc
    simp only [buildGo] at hc
    by_cases h0 : (trimc s).length = 0
    · rw [if_pos h0] at hc
      exact ih acc hacc c hc
    · rw [if_neg h0] at hc
      have htne : trimc s ≠ [] := fun h => h0 (by simp [h])
      by_cases hemit : S < acc.length + (trimc s).length ∧ 0 < acc.length
      · rw [if_pos hemit] at hc
        rcases List.mem_cons.mp hc with rfl | hc
        · rw [trimc_eq_self_of_tight hacc]
          exact List.length_pos.mp hemit.2
        · exact ih _ (tightStr_trimc s) c hc
      · rw [if_neg hemit] at hc
        by_cases hpos : 0 < acc.length
        · rw [if_pos hpos] at hc
          refine ih _ (tightStr_append_sep hacc ?_ (tightStr_trimc s) htne) c hc
          exact List.length_pos.mp hpos
        · rw [if_neg hpos] at hc
          have : acc = [] := by
            cases acc with
            | nil => rfl
            | cons a l => exact absurd (by simp) hpos
          subst this
          simp only [List.nil_append] at hc
          exact ih _ (tightStr_trimc s) c hc

theorem buildGo_join (S : Nat) :
    ∀ (frags : List (List Char)) (acc : List Char),
      tightStr acc → (∀ f ∈ frags, trimc f ≠ []) →
      joinSep (buildGo S frags acc)
        = if acc = [] then joinSep (frags.map trimc)
          else joinSep (acc :: frags.map trimc) := by
  intro frags
  induction frags with
  | nil =>
    intro acc hacc _
    have hta : trimc acc = acc := trimc_eq_self_of_tight hacc
    by_cases hne : acc = []
    · subst hne; simp [buildGo, joinSep]
    · rw [if_neg hne]
      simp [buildGo, hta, List.length_pos.mpr hne, joinSep]
  | cons s rest ih =>
    intro acc hacc hf
    have htne : trimc s ≠ [] := hf s (List.mem_cons_self s rest)
    have h0 : ¬((trimc s).length = 0) := fun h => htne (List.length_eq_zero.mp h)
    have hfrest : ∀ f ∈ rest, trimc f ≠ [] := fun f hfm => hf f (List.mem_cons_of_mem s hfm)
    simp only [buildGo]
    rw [if_neg h0]
    by_cases hemit : S < acc.length + (trimc s).length ∧ 0 < acc.length
    · rw [if_pos hemit]
      have haccne : acc ≠ [] := List.length_pos.mp hemit.2
      have hta : trimc acc = acc := trimc_eq_self_of_tight hacc
      have hrec := ih (trimc s) (tightStr_trimc s) hfrest
      rw [if_neg htne] at hrec
      have hbne : buildGo S rest (trimc s) ≠ [] :=
        buildGo_ne_nil S rest (trimc s) (tightStr_trimc s) htne
      obtain ⟨b, bs, hb⟩ := List.exists_cons_of_ne_nil hbne
      rw [if_neg haccne]
      rw [hta, hb, joinSep_cons_cons]
      rw [hb] at hrec
      rw [hrec]
      simp [joinSep_cons_cons]
    · rw [if_neg hemit]
      by_cases hpos : 0 < acc.length
      · rw [if_pos hpos]
        have haccne : acc ≠ [] := List.length_pos.mp hpos
        have hacc' : tightStr (acc ++ '.' :: ' ' :: trimc s) :=
          tightStr_append_sep hacc haccne (tightStr_trimc s) htne
        have hrec := ih _ hacc' hfrest
        rw [if_neg (by simp)] at hrec
        rw [hrec, if_neg haccne]
        simp only [List.map_cons]
        rw [joinSep_sep_absorb, joinSep_cons_cons]
      · rw [if_neg hpos]
        have : acc = [] := by
          cases acc with
          | nil => rfl
          | cons a l => exact absurd (by simp) hpos
        subst this
        simp only [List.nil_append]
        have hrec := ih (trimc s) (tightStr_trimc s) hfrest
        rw [if_neg htne] at hrec
        rw [hrec]
        simp

theorem buildGo_length_le (S : Nat) :
    ∀ (frags : List (List Char)) (acc : List Char),
      (buildGo S frags acc).length ≤ frags.length + 1 := by
  intro frags
  induction frags with
  | nil =>
    intro acc
    by_cases h : 0 < (trimc acc).length <;> simp [buildGo, h]
  | cons s rest ih =>
    intro acc
    simp only [buildGo]
    by_cases h0 : (trimc s).length = 0
    · rw [if_pos h0]
      calc (buildGo S rest acc).length ≤ rest.length + 1 := ih acc
        _ ≤ (s :: rest).length + 1 := by simp
    · rw [if_neg h0]
      by_cases hemit : S < acc.length + (trimc s).length ∧ 0 < acc.length
      · rw [if_pos hemit]
        have := ih (trimc s)
        simp only [List.length_cons]
        omega
      · rw [if_neg hemit]
        by_cases hpos : 0 < acc.length
        · rw [if_pos hpos]
          calc (buildGo S rest _).length ≤ rest.length + 1 := ih _
            _ ≤ (s :: rest).length + 1 := by simp
        · rw [if_neg hpos]
          calc (buildGo S rest _).length ≤ rest.length + 1 := ih _
            _ ≤ (s :: rest).length + 1 := by simp

/-- Size invariant of the chunk builder: relative to a fragment superset
`frags₀`, every emitted chunk either fits in `S + 2` (target size plus the
two separator characters `". "`, which the size check does not count) or is
no longer than a single trimmed fragment. -/
theorem buildGo_size (S : Nat) (frags₀ : List (List Char)) :
    ∀ (frags : List (List Char)) (acc : List Char),
      (∀ f ∈ frags, f ∈ frags₀) →
      (acc = [] ∨ acc.length ≤ S + 2 ∨ ∃ s ∈ frags₀, acc.length ≤ (trimc s).length) →
      ∀ c ∈ buildGo S frags acc,
        c.length ≤ S + 2 ∨ ∃ s ∈ frags₀, c.length ≤ (trimc s).length := by
  intro frags
  induction frags with
  | nil =>
    intro acc _ hinv c hc
    simp only [buildGo] at hc
    by_cases h : 0 < (trimc acc).length
    · rw [if_pos h] at hc
      rcases List.mem_cons.mp hc with rfl | hc
      · rcases hinv with rfl | hinv
        · simp [trimc] at h
        · have hle := length_trimc_le acc
          rcases hinv with h1 | ⟨s, hs, h2⟩
          · exact Or.inl (le_trans hle h1)
          · exact Or.inr ⟨s, hs, le_trans hle h2⟩
      · simp at hc
    · rw [if_neg h] at hc; simp at hc
  | cons s rest ih =>
    intro acc hsub hinv c hc
    have hsubr : ∀ f ∈ rest, f ∈ frags₀ := fun f hfm => hsub f (List.mem_cons_of_mem s hfm)
    have hs0 : s ∈ frags₀ := hsub s (List.mem_cons_self s rest)
    simp only [buildGo] at hc
    by_cases h0 : (trimc s).length = 0
    · rw [if_pos h0] at hc
      exact ih acc hsubr hinv c hc
    · rw [if_neg h0] at hc
      by_cases hemit : S < acc.length + (trimc s).length ∧ 0 < acc.length
      · rw [if_pos hemit] at hc
        rcases List.mem_cons.mp hc with rfl | hc
        · rcases hinv with rfl | hinv
          · simp at hemit
          · have hle := length_trimc_le acc
            rcases hinv with h1 | ⟨s', hs', h2⟩
            · exact Or.inl (le_trans hle h1)
            · exact Or.inr ⟨s', hs', le_trans hle h2⟩
        · exact ih (trimc s) hsubr
            (Or.inr (Or.inr ⟨s, hs0, le_refl _⟩)) c hc
      · rw [if_neg hemit] at hc
        by_cases hpos : 0 < acc.length
        · rw [if_pos hpos] at hc
          refine ih _ hsubr ?_ c hc
          right; left
          have hns : ¬(S < acc.length + (trimc s).length) := by
            intro hlt; exact hemit ⟨hlt, hpos⟩
          simp only [List.length_append, List.length_cons]
          omega
        · rw [if_neg hpos] at hc
          have : acc = [] := by
            cases acc with
            | nil => rfl
            | cons a l => exact absurd (by simp) hpos
          subst this
          simp only [List.nil_append] at hc
          exact ih (trimc s) hsubr (Or.inr (Or.inr ⟨s, hs0, le_refl _⟩)) c hc

/-! ### Invariants of the chunk merger -/

theorem mergeGoWith_ne_nil (M : Nat) :
    ∀ (cs : List (List Char)) (temp : List Char),
      temp ≠ [] → mergeGoWith M cs temp ≠ [] := by
  intro cs
  induction cs with
  | nil =>
    intro temp hne
    simp [mergeGoWith, List.length_pos.mpr hne]
  | cons c rest ih =>
    intro temp hne
    simp only [mergeGoWith]
    by_cases hm : temp.length + c.length < M ∧ 0 < temp.length
    · rw [if_pos hm]
      exact ih _ (by simp [hne])
    · rw [if_neg hm, if_pos (List.length_pos.mpr hne)]
      simp

theorem mergeGoWith_head_len (M : Nat) :
    ∀ (cs : List (List Char)) (temp : List Char),
      temp ≠ [] → temp.length ≤ ((mergeGoWith M cs temp).getD 0 []).length := by
  intro cs
  induction cs with
  | nil =>
    intro temp hne
    simp [mergeGoWith, List.length_pos.mpr hne]
  | cons c rest ih =>
    intro temp hne
    simp only [mergeGoWith]
    by_cases hm : temp.length + c.length < M ∧ 0 < temp.length
    · rw [if_pos hm]
      calc temp.length ≤ (temp ++ '.' :: ' ' :: c).length := by simp
        _ ≤ _ := ih _ (by simp [hne])
    · rw [if_neg hm, if_pos (List.length_pos.mpr hne)]
      simp

theorem mergeGoWith_join (M : Nat) :
    ∀ (cs : List (List Char)) (temp : List Char),
      (∀ c ∈ cs, c ≠ []) →
      joinSep (mergeGoWith M cs temp)
        = if temp = [] then joinSep cs else joinSep (temp :: cs) := by
  intro cs
  induction cs with
  | nil =>
    intro temp _
    by_cases hne : temp = []
    · subst hne; simp [mergeGoWith, joinSep]
    · rw [if_neg hne]
      simp [mergeGoWith, List.length_pos.mpr hne, joinSep]
  | cons c rest ih =>
    intro temp hcs
    have hcne : c ≠ [] := hcs c (List.mem_cons_self c rest)
    have hrest : ∀ x ∈ rest, x ≠ [] := fun x hx => hcs x (List.mem_cons_of_mem c hx)
    simp only [mergeGoWith]
    by_cases hm : temp.length + c.length < M ∧ 0 < temp.length
    · rw [if_pos hm]
      have htne : temp ≠ [] := List.length_pos.mp hm.2
      have hrec := ih (temp ++ '.' :: ' ' :: c) hrest
      rw [if_neg (by simp)] at hrec
      rw [hrec, if_neg htne]
      rw [joinSep_sep_absorb]
      rw [joinSep_cons_cons]
    · rw [if_neg hm]
      by_cases hpos : 0 < temp.length
      · rw [if_pos hpos]
        have htne : temp ≠ [] := List.length_pos.mp hpos
        have hrec := ih c hrest
        rw [if_neg hcne] at hrec
        have hmne : mergeGoWith M rest c ≠ [] := mergeGoWith_ne_nil M rest c hcne
        obtain ⟨b, bs, hb⟩ := List.exists_cons_of_ne_nil hmne
        rw [if_neg htne, hb, joinSep_cons_cons, ← hb, hrec, joinSep_cons_cons]
      · rw [if_neg hpos]
        have : temp = [] := by
          cases temp with
          | nil => rfl
          | cons a l => exact absurd (by simp) hpos
        subst this
        have hrec := ih c hrest
        rw [if_neg hcne] at hrec
        rw [hrec, if_pos rfl]

theorem mergeGoWith_adj (M : Nat) :
    ∀ (cs : List (List Char)) (temp : List Char),
      (∀ c ∈ cs, c ≠ []) → adjPairsGE M (mergeGoWith M cs temp) := by
  intro cs
  induction cs with
  | nil =>
    intro temp _ i hi
    by_cases h : 0 < temp.length
    · simp [mergeGoWith, h] at hi
    · simp [mergeGoWith, h] at hi
  | cons c rest ih =>
    intro temp hcs
    have hcne : c ≠ [] := hcs c (List.mem_cons_self c rest)
    have hrest : ∀ x ∈ rest, x ≠ [] := fun x hx => hcs x (List.mem_cons_of_mem c hx)
    intro i hi
    simp only [mergeGoWith] at hi ⊢
    by_cases hm : temp.length + c.length < M ∧ 0 < temp.length
    · rw [if_pos hm] at hi ⊢
      exact ih _ hrest i hi
    · rw [if_neg hm] at hi ⊢
      by_cases hpos : 0 < temp.length
      · rw [if_pos hpos] at hi ⊢
        cases i with
        | zero =>
          have hM : M ≤ temp.length + c.length := by
            rcases Nat.lt_or_ge (temp.length + c.length) M with hlt | hge
            · exact absurd ⟨hlt, hpos⟩ hm
            · exact hge
          have hhead := mergeGoWith_head_len M rest c hcne
          simp only [List.getD_cons_zero, List.getD_cons_succ]
          omega
        | succ j =>
          simp only [List.getD_cons_succ]
          refine ih c hrest j ?_
          simpa using hi
      · rw [if_neg hpos] at hi ⊢
        exact ih c hrest i hi

theorem mergeGoWith_length_le (M : Nat) :
    ∀ (cs : List (List Char)) (temp : List Char),
      (mergeGoWith M cs temp).length ≤ cs.length + 1 := by
  intro cs
  induction cs with
  | nil =>
    intro temp
    by_cases h : 0 < temp.length <;> simp [mergeGoWith, h]
  | cons c rest ih =>
    intro temp
    simp only [mergeGoWith]
    by_cases hm : temp.length + c.length < M ∧ 0 < temp.length
    · rw [if_pos hm]
      calc (mergeGoWith M rest _).length ≤ rest.length + 1 := ih _
        _ ≤ (c :: rest).length + 1 := by simp
    · rw [if_neg hm]
      by_cases hpos : 0 < temp.length
      · rw [if_pos hpos]
        have := ih c
        simp only [List.length_cons]
        omega
      · rw [if_neg hpos]
        calc (mergeGoWith M rest c).length ≤ rest.length + 1 := ih c
          _ ≤ (c :: rest).length + 1 := by simp

/-! ### Pipeline-level helper facts -/

theorem sentences_trimc_ne_nil (text : List Char) :
    ∀ f ∈ sentences text, trimc f ≠ [] := by
  intro f hf
  have := (List.mem_filter.mp hf).2
  simp only [decide_eq_true_eq] at this
  exact List.length_pos.mp this

theorem buildGo_ne_nil_of_frags (S : Nat) (frags : List (List Char))
    (hne : frags ≠ []) (hf : ∀ f ∈ frags, trimc f ≠ []) :
    buildGo S frags [] ≠ [] := by
  obtain ⟨s, rest, rfl⟩ := List.exists_cons_of_ne_nil hne
  have htne : trimc s ≠ [] := hf s (List.mem_cons_self s rest)
  have h0 : ¬((trimc s).length = 0) := fun h => htne (List.length_eq_zero.mp h)
  simp only [buildGo]
  rw [if_neg h0, if_neg (by simp), List.nil_append, if_neg (by simp)]
  exact buildGo_ne_nil S rest (trimc s) (tightStr_trimc s) htne

theorem mergeGoWith_ne_nil_of_chunks (M : Nat) (cs : List (List Char))
    (hne : cs ≠ []) (hcs : ∀ c ∈ cs, c ≠ []) :
    mergeGoWith M cs [] ≠ [] := by
  obtain ⟨c, rest, rfl⟩ := List.exists_cons_of_ne_nil hne
  have hcne : c ≠ [] := hcs c (List.mem_cons_self c rest)
  simp only [mergeGoWith]
  rw [if_neg (by simp), if_neg (by simp)]
  exact mergeGoWith_ne_nil M rest c hcne

theorem chunkText_length_pos (text : List Char) (S : Nat) :
    1 ≤ (chunkText text S).length := by
  simp only [chunkText]
  by_cases h : 0 < (mergeChunks (buildGo S (sentences text) [])).length
  · rw [if_pos h]; exact h
  · rw [if_neg h]; simp

theorem chunkText_eq_merged (text : List Char) (S : Nat)
    (hne : sentences text ≠ []) :
    chunkText text S = mergeChunks (buildGo S (sentences text) []) := by
  have hb : buildGo S (sentences text) [] ≠ [] :=
    buildGo_ne_nil_of_frags S (sentences text) hne (sentences_trimc_ne_nil text)
  have hbchunks : ∀ c ∈ buildGo S (sentences text) [], c ≠ [] :=
    buildGo_chunks_ne_nil S (sentences text) [] tightStr_nil
  have hm : mergeChunks (buildGo S (sentences text) []) ≠ [] :=
    mergeGoWith_ne_nil_of_chunks 100 _ hb hbchunks
  simp only [chunkText]
  rw [if_pos (List.length_pos.mpr hm)]

/-! ### Facts about the fallback ranking -/

theorem rankGo_length (j : Nat) (items : List MatchItem) :
    (rankGo j items).length = items.length := by
  induction items generalizing j with
  | nil => rfl
  | cons a l ih => simp [rankGo, ih]

theorem rankGo_getD (items : List MatchItem) :
    ∀ (j i : Nat), i < items.length →
      (rankGo j items).getD i dummyResult = mkScored (j + i) (items.getD i dummyItem) := by
  induction items with
  | nil => intro j i hi; simp at hi
  | cons a l ih =>
    intro j i hi
    cases i with
    | zero => simp [rankGo]
    | succ k =>
      simp only [rankGo, List.getD_cons_succ]
      rw [ih (j + 1) k (by simpa using hi)]
      congr 1
      omega

theorem rankGo_map_score :
    ∀ (l₁ l₂ : List MatchItem) (j : Nat), l₁.length = l₂.length →
      (rankGo j l₁).map (fun r => r.score) = (rankGo j l₂).map (fun r => r.score) := by
  intro l₁
  induction l₁ with
  | nil =>
    intro l₂ j h
    cases l₂ with
    | nil => rfl
    | cons b m => simp at h
  | cons a l ih =>
    intro l₂ j h
    cases l₂ with
    | nil => simp at h
    | cons b m =>
      simp only [rankGo, List.map_cons]
      congr 1
      exact ih m (j + 1) (by simpa using h)

/-! ### The claims -/

set_option maxRecDepth 10000 in
/-- C1 (counterexample): for the 531-character input whose sentences have
lengths 480 and 50, the default pipeline (`S = 500`, `M = 100`) returns
two chunks whose second (not the first, and not the only chunk) has length
50 < 100, refuting the claim that only the very first merged chunk may be
shorter than `M`. -/
theorem C1_counterexample :
    (chunkText longShortText 500).length = 2 ∧
    ((chunkText longShortText 500).getD 1 []).length = 50 ∧
    ((chunkText longShortText 500).getD 1 []).length < 100 :=
  ⟨by decide, by decide, by decide⟩

/-- C1 (amended): what the merger does guarantee under the default
configuration is a pairwise bound: any two adjacent chunks of the final
sequence have combined length at least `M = 100` (an individual chunk
after the first — including the last — may still be shorter than `M`). -/
theorem C1_adjacent_pairs (text : List Char) (i : Nat)
    (h : i + 1 < (chunkText text 500).length) :
    100 ≤ ((chunkText text 500).getD i []).length
        + ((chunkText text 500).getD (i + 1) []).length := by
  simp only [chunkText, mergeChunks] at h ⊢
  by_cases hm : 0 < (mergeGoWith 100 (buildGo 500 (sentences text) []) []).length
  · rw [if_pos hm] at h ⊢
    exact mergeGoWith_adj 100 (buildGo 500 (sentences text) []) []
      (buildGo_chunks_ne_nil 500 (sentences text) [] tightStr_nil) i h
  · rw [if_neg hm] at h
    simp only [List.length_singleton] at h
    omega

set_option maxRecDepth 10000 in
theorem C1_adjacent_pairs_witness :
    0 + 1 < (chunkText longShortText 500).length ∧
    100 ≤ ((chunkText longShortText 500).getD 0 []).length
        + ((chunkText longShortText 500).getD (0 + 1) []).length :=
  ⟨by decide, C1_adjacent_pairs longShortText 0 (by decide)⟩

/-- C2 (counterexample): with `chunkSize = 10` the source pipeline merges
two provisional chunks of combined length 12 into one chunk, because its
merge threshold is the literal 100; the spec-side variant whose threshold
is derived from `chunkSize` at the 5:1 ratio (`10 / 5 = 2`) keeps them
separate, so the two disagree: the merge threshold does not vary with
`chunkSize`. -/
theorem C2_counterexample :
    chunkText (("aaaaaa.bbbbbb").toList) 10 = [("aaaaaa. bbbbbb").toList] ∧
    chunkTextSpecRatio (("aaaaaa.bbbbbb").toList) 10
      = [("aaaaaa").toList, ("bbbbbb").toList] ∧
    chunkText (("aaaaaa.bbbbbb").toList) 10
      ≠ chunkTextSpecRatio (("aaaaaa.bbbbbb").toList) 10 :=
  ⟨by decide, by decide, by decide⟩

/-- C2 (amended): the merge threshold is the constant 100, independent of
the caller's `chunkSize`: the merge stage is a function of the provisional
chunk list alone, so whenever two `chunkSize` values lead the builder to
the same provisional chunks (and some sentence exists), the final output
is identical. -/
theorem C2_merge_threshold_independent (text : List Char) (S₁ S₂ : Nat)
    (hb : buildGo S₁ (sentences text) [] = buildGo S₂ (sentences text) [])
    (hne : sentences text ≠ []) :
    chunkText text S₁ = chunkText text S₂ := by
  rw [chunkText_eq_merged text S₁ hne, chunkText_eq_merged text S₂ hne, hb]

theorem C2_merge_threshold_independent_witness :
    buildGo 500 (sentences (("A. B. C.").toList)) []
      = buildGo 1000 (sentences (("A. B. C.").toList)) [] ∧
    sentences (("A. B. C.").toList) ≠ [] ∧
    chunkText (("A. B. C.").toList) 500 = chunkText (("A. B. C.").toList) 1000 :=
  ⟨by decide, by decide,
    C2_merge_threshold_independent (("A. B. C.").toList) 500 1000 (by decide) (by decide)⟩

/-- C3 (counterexample): for the input `"a.b"` with target size `S = 2`,
the builder emits the single chunk `"a. b"` of length 4, while every
sentence of the input has (trimmed) length 1: the chunk exceeds `S` plus
the length of every sentence it contains (`2 + 1 = 3 < 4`), because the
injected `". "` separator is not counted by the size check. -/
theorem C3_counterexample :
    sentences (("a.b").toList) = [['a'], ['b']] ∧
    buildGo 2 (sentences (("a.b").toList)) [] = [('a' :: '.' :: ' ' :: 'b' :: [])] ∧
    2 + (trimc ['a']).length < ('a' :: '.' :: ' ' :: 'b' :: ([] : List Char)).length ∧
    2 + (trimc ['b']).length < ('a' :: '.' :: ' ' :: 'b' :: ([] : List Char)).length :=
  ⟨by decide, by decide, by decide, by decide⟩

/-- C3 (amended): every provisional chunk emitted by the builder either
has length at most `S + 2` (the target size plus the two characters of one
`". "` separator, which the size check does not count) or is no longer
than a single trimmed sentence of the input (a lone oversized sentence
becomes its own chunk, never truncated). -/
theorem C3_chunk_size_bound (text : List Char) (S : Nat) (c : List Char)
    (hc : c ∈ buildGo S (sentences text) []) :
    c.length ≤ S + 2 ∨ ∃ s ∈ sentences text, c.length ≤ (trimc s).length :=
  buildGo_size S (sentences text) (sentences text) [] (fun _ hf => hf)
    (Or.inl rfl) c hc

theorem C3_chunk_size_bound_witness :
    ("A. B. C").toList ∈ buildGo 500 (sentences (("A. B. C.").toList)) [] ∧
    ((("A. B. C").toList).length ≤ 500 + 2 ∨
      ∃ s ∈ sentences (("A. B. C.").toList),
        (("A. B. C").toList).length ≤ (trimc s).length) :=
  ⟨by decide, C3_chunk_size_bound (("A. B. C.").toList) 500 (("A. B. C").toList) (by decide)⟩

/-- C4: for inputs with at least one extractable sentence, concatenating
the final chunks (with the injected `". "` separators between them) equals
the trimmed fragments of the segmenter joined by `". "`; and re-running
the segmenter on that concatenation returns exactly the original trimmed
fragment sequence — no fragment is lost, duplicated or reordered, and
chunk order equals document order. -/
theorem C4_reconstruction (text : List Char) (S : Nat) (h : sentences text ≠ []) :
    joinSep (chunkText text S) = joinSep (trimmedSentences text) ∧
    trimmedSentences (joinSep (chunkText text S)) = trimmedSentences text := by
  have hT := sentences_trimc_ne_nil text
  have hchunks : ∀ c ∈ buildGo S (sentences text) [], c ≠ [] :=
    buildGo_chunks_ne_nil S (sentences text) [] tightStr_nil
  have hjoin1 : joinSep (chunkText text S) = joinSep (trimmedSentences text) := by
    rw [chunkText_eq_merged text S h]
    have hm := mergeGoWith_join 100 (buildGo S (sentences text) []) [] hchunks
    rw [if_pos rfl] at hm
    have hb := buildGo_join S (sentences text) [] tightStr_nil hT
    rw [if_pos rfl] at hb
    calc joinSep (mergeChunks (buildGo S (sentences text) []))
        = joinSep (buildGo S (sentences text) []) := hm
      _ = joinSep ((sentences text).map trimc) := hb
      _ = joinSep (trimmedSentences text) := rfl
  refine ⟨hjoin1, ?_⟩
  have hts_ne : trimmedSentences text ≠ [] := by
    unfold trimmedSentences
    simpa using h
  obtain ⟨p, rest, hpr⟩ := List.exists_cons_of_ne_nil hts_ne
  have hprops : ∀ q ∈ trimmedSentences text,
      q ≠ [] ∧ tightStr q ∧ ∀ c ∈ q, isDelim c = false := by
    intro q hq
    obtain ⟨f, hf, rfl⟩ := List.mem_map.mp hq
    refine ⟨hT f hf, tightStr_trimc f, ?_⟩
    intro c hc
    have hcf : c ∈ f := mem_of_mem_trimc hc
    have hfsp : f ∈ splitDelims text := (List.mem_filter.mp hf).1
    exact splitGo_pieces_nodelim text false [] (by simp) f hfsp c hcf
  rw [hjoin1, hpr]
  rw [hpr] at hprops
  exact trimmedSentences_joinSep p rest hprops

theorem C4_reconstruction_witness :
    sentences (("A. B. C.").toList) ≠ [] ∧
    joinSep (chunkText (("A. B. C.").toList) 500)
      = joinSep (trimmedSentences (("A. B. C.").toList)) ∧
    trimmedSentences (joinSep (chunkText (("A. B. C.").toList) 500))
      = trimmedSentences (("A. B. C.").toList) :=
  ⟨by decide, (C4_reconstruction (("A. B. C.").toList) 500 (by decide)).1,
    (C4_reconstruction (("A. B. C.").toList) 500 (by decide)).2⟩

/-- C5 (counterexample): at zero-based position 10 the fallback score is
`1 - 10 * (1/10) = 0`, which is not negative, refuting the claim that the
score is negative for every position `i ≥ 10`. -/
theorem C5_counterexample :
    ((fallbackKeywordRank (("cat").toList) (List.replicate 11 itemA)).getD
        10 dummyResult).score = 0 ∧
    ¬(((fallbackKeywordRank (("cat").toList) (List.replicate 11 itemA)).getD
        10 dummyResult).score < 0) := by
  have hsc : ((fallbackKeywordRank (("cat").toList) (List.replicate 11 itemA)).getD
      10 dummyResult).score = 0 := by
    simp only [fallbackKeywordRank]
    rw [rankGo_getD (List.replicate 11 itemA) 0 10 (by simp)]
    simp [mkScored]
  exact ⟨hsc, by rw [hsc]; norm_num⟩

/-- C5 (amended): the fallback assigns the item at zero-based position `i`
the score `1 - (i * 0.1)` (so positions 0, 1, 2 receive 1, 9/10, 8/10);
the score is negative for every position `i ≥ 11`, and at `i = 10` it is
exactly 0; no clamping is performed. -/
theorem C5_score_formula (q : List Char) (items : List MatchItem) (i : Nat)
    (h : i < items.length) :
    ((fallbackKeywordRank q items).getD i dummyResult).score
        = 1 - (i : Rat) * (1 / 10) ∧
    (11 ≤ i → ((fallbackKeywordRank q items).getD i dummyResult).score < 0) ∧
    (i = 10 → ((fallbackKeywordRank q items).getD i dummyResult).score = 0) := by
  have hsc : ((fallbackKeywordRank q items).getD i dummyResult).score
      = 1 - (i : Rat) * (1 / 10) := by
    simp only [fallbackKeywordRank]
    rw [rankGo_getD items 0 i h]
    simp [mkScored]
  refine ⟨hsc, ?_, ?_⟩
  · intro hi
    rw [hsc]
    have hcast : (11 : Rat) ≤ (i : Rat) := by exact_mod_cast hi
    linarith
  · rintro rfl
    rw [hsc]
    norm_num

theorem C5_score_formula_witness :
    11 < (List.replicate 12 itemA).length ∧
    ((fallbackKeywordRank (("cat").toList) (List.replicate 12 itemA)).getD
        11 dummyResult).score < 0 :=
  ⟨by decide,
    (C5_score_formula (("cat").toList) (List.replicate 12 itemA) 11 (by decide)).2.1
      (by norm_num)⟩

/-- C6: for every input string and every chunk size the pipeline returns
at least one chunk (the fallback branch guarantees a non-empty result even
when no sentence is extractable). -/
theorem C6_at_least_one_chunk (text : List Char) (S : Nat) :
    1 ≤ (chunkText text S).length :=
  chunkText_length_pos text S

/-- C7: on the input `"A. B. C."` with chunk size 500 the pipeline returns
exactly the single chunk `"A. B. C"` — sentences trimmed, joined by
`". "`, trailing delimiter discarded. -/
theorem C7_single_chunk :
    chunkText (("A. B. C.").toList) 500 = [("A. B. C").toList] := by decide

/-- C8: on the empty input the pipeline returns exactly one chunk, the
empty string, which is the designed fallback `text.substring(0, chunkSize)`
(not an error). -/
theorem C8_empty_input :
    chunkText [] 500 = [([] : List Char).take 500] ∧
    ([] : List Char).take 500 = [] :=
  ⟨by decide, by decide⟩

/-- C9: the chunking core is a total function of its inputs — for every
text and every chunk size it returns a sequence (never nothing), non-empty
and of size bounded by the sentence count plus two; every string operation
it performs is total, so no exception can arise. -/
theorem C9_total_function (text : List Char) (S : Nat) :
    ∃ cs : List (List Char), chunkText text S = cs ∧ 1 ≤ cs.length ∧
      cs.length ≤ (sentences text).length + 2 := by
  refine ⟨chunkText text S, rfl, chunkText_length_pos text S, ?_⟩
  simp only [chunkText, mergeChunks]
  by_cases hm : 0 < (mergeGoWith 100 (buildGo S (sentences text) []) []).length
  · rw [if_pos hm]
    have h1 := mergeGoWith_length_le 100 (buildGo S (sentences text) []) []
    have h2 := buildGo_length_le S (sentences text) []
    omega
  · rw [if_neg hm]
    simp

/-- C10: the fallback scores depend only on position — two runs with any
queries and any equal-length item lists produce identical score sequences —
and each result carries its item's `content`, `documentId` and
`chunkIndex` unchanged. -/
theorem C10_position_only (q₁ q₂ : List Char) (l₁ l₂ : List MatchItem)
    (h : l₁.length = l₂.length) :
    ((fallbackKeywordRank q₁ l₁).map (fun r => r.score)
      = (fallbackKeywordRank q₂ l₂).map (fun r => r.score)) ∧
    (∀ i, i < l₁.length →
      ((fallbackKeywordRank q₁ l₁).getD i dummyResult).content
          = (l₁.getD i dummyItem).content ∧
      ((fallbackKeywordRank q₁ l₁).getD i dummyResult).documentId
          = (l₁.getD i dummyItem).documentId ∧
      ((fallbackKeywordRank q₁ l₁).getD i dummyResult).chunkIndex
          = (l₁.getD i dummyItem).chunkIndex) := by
  constructor
  · exact rankGo_map_score l₁ l₂ 0 h
  · intro i hi
    simp only [fallbackKeywordRank]
    rw [rankGo_getD l₁ 0 i hi]
    simp [mkScored]

theorem C10_position_only_witness :
    (fallbackKeywordRank (("cat").toList) [itemA, itemB]).map (fun r => r.score)
      = (fallbackKeywordRank (("dog").toList) [itemB, itemA]).map (fun r => r.score) ∧
    ((fallbackKeywordRank (("cat").toList) [itemA, itemB]).getD 0 dummyResult).content
      = itemA.content :=
  ⟨(C10_position_only (("cat").toList) (("dog").toList) [itemA, itemB] [itemB, itemA]
      (by decide)).1,
    ((C10_position_only (("cat").toList) (("cat").toList) [itemA, itemB] [itemB, itemA]
      (by decide)).2 0 (by decide)).1⟩

end Smntc
